import Mathlib

/-!
Verification of the LZHUF block decoder (`src/lzhuf/decoder.rs` of
rust-compression) against its design specification.

The decoder source is embedded shallowly: the bit-level state machine,
the three table-reconstruction routines and the per-code decode step are
translated function by function.  The collaborators that live outside the
decoder source file (the bit reader, the canonical-Huffman table, the LZSS
window expander, the error enum and the method descriptor) are modelled from
the specification's external-interface contracts; each such definition is
marked `Modelled from the spec:` in its doc comment.

The bit source is a finite list of bits (`List Bool`, most significant bit
first).  Following the specification's bit-source contract, `read_bits`
reports a truncated stream in-band: it returns the value of the bits it
could deliver together with the number delivered, and an `Err` from the
reader stands for an underlying I/O failure only — which a pure in-memory
bit list never produces, so the modelled read is total.
-/

/-- Modelled from the spec: the two terminal error kinds of section 7,
`UnexpectedEof` and `DataError` (the error enum itself lives outside the
decoder source file). -/
inductive CompressionError where
  | UnexpectedEof
  | DataError
  deriving DecidableEq, Repr

/-- Value of a bit string read most-significant-bit first. -/
def bitsToNat (l : List Bool) : Nat :=
  l.foldl (fun a b => 2 * a + b.toNat) 0

/-- Modelled from the spec: the bit-source contract of section 6,
`read_bits(width) -> (value, bitsDelivered)`, plus the rest of the stream.
Delivered bits are removed from the front; fewer than `width` are delivered
exactly when the stream is shorter than `width`. -/
def readBits (width : Nat) (bits : List Bool) : Nat × Nat × List Bool :=
  (bitsToNat (bits.take width), (bits.take width).length, bits.drop width)

/-- Modelled from the spec: the symbols of nonzero code length paired with
their lengths, in ascending (length, symbol-index) order; lengths are 8-bit
values, so scanning lengths 1..256 covers them all. -/
def canonicalSorted (lens : List Nat) : List (Nat × Nat) :=
  (((List.range 257).drop 1).map
    (fun l => (lens.enum.filter (fun p => p.2 = l)).map (fun p => (p.1, l)))).flatten

/-- Modelled from the spec: canonical code assignment — the first symbol gets
code 0 at its length, each following symbol gets the previous code plus one,
shifted left by the length increase. -/
def assignCodes : Nat → Nat → List (Nat × Nat) → List (Nat × Nat × Nat)
  | _, _, [] => []
  | code, prevLen, (s, l) :: rest =>
    let c := code <<< (l - prevLen)
    (s, l, c) :: assignCodes (c + 1) l rest

/-- Modelled from the spec: the canonical (symbol, length, code) table of a
length list. -/
def canonicalCodes (lens : List Nat) : List (Nat × Nat × Nat) :=
  match canonicalSorted lens with
  | [] => []
  | (s, l) :: rest => assignCodes 0 l ((s, l) :: rest)

/-- Modelled from the spec: Kraft completeness of a length list; a length of 0
marks an unused symbol.  Lengths are 8-bit values, so exponent base 256 keeps
every term exact. -/
def kraftSum (lens : List Nat) : Nat :=
  (lens.filter (fun l => l ≠ 0)).foldl (fun a l => a + 2 ^ (256 - l)) 0

/-- Modelled from the spec: `build(lengths, lookupWidth) -> Table | BuildError`;
construction fails when the lengths are an under- or over-subscribed prefix-code
description.  The lookup width only sizes an acceleration structure whose
representation the spec declares unobservable, so the table is modelled by its
length list. -/
def huffmanNew (lens : List Nat) (_tabLen : Nat) : Except Unit (List Nat) :=
  if kraftSum lens = 2 ^ 256 then .ok lens else .error ()

/-- Modelled from the spec: `Table.decode(bitSource) -> symbol | None on
exhaustion` — the unique canonical code that prefixes the remaining bits
determines the symbol and is consumed; when no full code is available the
decode reports `none`. -/
def huffDec (lens : List Nat) (bits : List Bool) : Option Nat × List Bool :=
  match (canonicalCodes lens).find?
      (fun t => t.2.1 ≤ bits.length && bitsToNat (bits.take t.2.1) == t.2.2) with
  | some t => (some t.1, bits.drop t.2.1)
  | none => (none, bits)

/-- Modelled from the spec: an LZSS code is a literal byte or a
(length, offset) back-reference; constructor and field names follow the uses
in the decoder source. -/
inductive LzssCode where
  | Symbol (b : Nat)
  | Reference (len : Nat) (pos : Nat)
  deriving DecidableEq, Repr

/-- Source `enum LzhufHuffmanDecoder`: either a real canonical table or the
degenerate single-constant variant. -/
inductive LzhufHuffmanDecoder where
  | HuffmanDecoder (lens : List Nat)
  | Default (s : Nat)
  deriving DecidableEq, Repr

/-- Source `LzhufHuffmanDecoder::dec`: a real table decodes one symbol from
the reader (an error of the collaborator would map to `DataError`; the
modelled collaborator does not fail, it reports `none` on exhaustion), the
degenerate variant returns its constant and touches no bits. -/
def LzhufHuffmanDecoder.dec (d : LzhufHuffmanDecoder) (bits : List Bool) :
    Except CompressionError (Option Nat × List Bool) :=
  match d with
  | .HuffmanDecoder lens => .ok (huffDec lens bits)
  | .Default s => .ok (some s, bits)

/-- Modelled from the spec: the method descriptor carries the offset-field bit
width `P` (`offset_bits`). -/
structure LzhufMethod where
  offset_bits : Nat
  deriving DecidableEq, Repr

/-- Modelled from the spec: the minimum match length `M`, a constant of the
LZSS family; its exact value is immaterial to every theorem below. -/
def LZSS_MIN_MATCH : Nat := 3

/-- Source `struct LzhufDecoderInner`. -/
structure LzhufDecoderInner where
  offset_len : Nat
  min_match : Nat
  block_len : Nat
  symbol_decoder : Option LzhufHuffmanDecoder
  offset_decoder : Option LzhufHuffmanDecoder
  deriving DecidableEq, Repr

/-- Source `LzhufDecoderInner::new`. -/
def LzhufDecoderInner.new (method : LzhufMethod) : LzhufDecoderInner :=
  { offset_len := method.offset_bits
    min_match := LZSS_MIN_MATCH
    block_len := 0
    symbol_decoder := none
    offset_decoder := none }

/-- Source: the unary-extension loop of `dec_len` — read single-bit flags,
adding one (8-bit wrapping arithmetic, `c` is a `u8`) per flag equal to 1 and
stopping at the first 0 flag; a read at end of input delivers no bits, its
value reads as 0 and the loop ends. -/
def decLenFlags : Nat → List Bool → Nat × List Bool
  | c, [] => (c, [])
  | c, b :: r => if b then decLenFlags ((c + 1) % 256) r else (c, r)

/-- Source `LzhufDecoderInner::dec_len`: read a 3-bit field; on exactly 7,
extend by unary flags. -/
def dec_len (bits : List Bool) : Nat × List Bool :=
  match readBits 3 bits with
  | (c, _, r) => if c = 7 then decLenFlags 7 r else (c, r)

/-- Source: the collection loop of `dec_len_tree` (`while ll.len() < len`),
with the position-3 escape: when exactly 3 entries are present (and more are
needed), read a 2-bit run count and push that many zeros; fail with
`DataError` when that exceeds `len`, stop when it reaches `len` exactly,
otherwise continue with `dec_len`. -/
def decLenTreeCollect (len : Nat) (acc : List Nat) (bits : List Bool) :
    Except CompressionError (List Nat × List Bool) :=
  if acc.length < len then
    if acc.length = 3 then
      match readBits 2 bits with
      | (r, _, bits1) =>
        let acc1 := acc ++ List.replicate r 0
        if len < acc1.length then .error .DataError
        else if acc1.length = len then .ok (acc1, bits1)
        else
          match dec_len bits1 with
          | (v, bits2) => decLenTreeCollect len (acc1 ++ [v]) bits2
    else
      match dec_len bits with
      | (v, bits1) => decLenTreeCollect len (acc ++ [v]) bits1
  else .ok (acc, bits)
termination_by len - acc.length
decreasing_by
  · simp only [List.length_append, List.replicate, List.length_replicate,
      List.length_cons, List.length_nil]
    omega
  · simp only [List.length_append, List.length_cons, List.length_nil]
    omega

/-- Source `LzhufDecoderInner::dec_len_tree`: read the count; 0 gives the
degenerate table from a second read of the same width, otherwise collect the
lengths and build a canonical table with 5-bit acceleration width. -/
def dec_len_tree (tbit_len : Nat) (bits : List Bool) :
    Except CompressionError (LzhufHuffmanDecoder × List Bool) :=
  match readBits tbit_len bits with
  | (len, _, bits1) =>
    if len = 0 then
      match readBits tbit_len bits1 with
      | (c, _, bits2) => .ok (.Default c, bits2)
    else
      match decLenTreeCollect len [] bits1 with
      | .error e => .error e
      | .ok (ll, bits2) =>
        match huffmanNew ll 5 with
        | .ok t => .ok (.HuffmanDecoder t, bits2)
        | .error _ => .error .DataError

/-- Source: the collection loop of `dec_symb_tree` (`while ll.len() < len`):
decode one value from the code-length table; `none` is `UnexpectedEof`, 0
pushes one zero, 1 reads 4 extra bits `e` and pushes `3 + e` zeros, 2 reads 9
extra bits `e` and pushes `20 + e` zeros, and `n ≥ 3` pushes one entry
`(n - 2)` as a `u8`. -/
def decSymbTreeCollect (len : Nat) (d : LzhufHuffmanDecoder) (acc : List Nat)
    (bits : List Bool) : Except CompressionError (List Nat × List Bool) :=
  if acc.length < len then
    match d.dec bits with
    | .error e => .error e
    | .ok (none, _) => .error .UnexpectedEof
    | .ok (some s, bits1) =>
      if s = 0 then decSymbTreeCollect len d (acc ++ [0]) bits1
      else if s = 1 then
        match readBits 4 bits1 with
        | (e, _, bits2) =>
          decSymbTreeCollect len d (acc ++ List.replicate (3 + e) 0) bits2
      else if s = 2 then
        match readBits 9 bits1 with
        | (e, _, bits2) =>
          decSymbTreeCollect len d (acc ++ List.replicate (20 + e) 0) bits2
      else decSymbTreeCollect len d (acc ++ [(s - 2) % 256]) bits1
  else .ok (acc, bits)
termination_by len - acc.length
decreasing_by
  all_goals
    simp only [List.length_append, List.length_replicate, List.length_cons,
      List.length_nil]
    omega

/-- Source `LzhufDecoderInner::dec_symb_tree`: read a 9-bit count; 0 gives the
degenerate table from 9 more bits, otherwise collect the length list through
the code-length table and build a canonical table with 12-bit acceleration
width (`SEARCH_TAB_LEN`). -/
def dec_symb_tree (len_decoder : LzhufHuffmanDecoder) (bits : List Bool) :
    Except CompressionError (LzhufHuffmanDecoder × List Bool) :=
  match readBits 9 bits with
  | (len, _, bits1) =>
    if len = 0 then
      match readBits 9 bits1 with
      | (c, _, bits2) => .ok (.Default c, bits2)
    else
      match decSymbTreeCollect len len_decoder [] bits1 with
      | .error e => .error e
      | .ok (ll, bits2) =>
        match huffmanNew ll 12 with
        | .ok t => .ok (.HuffmanDecoder t, bits2)
        | .error _ => .error .DataError

/-- Source: the `(0..len).map(|_| self.dec_len(reader)).collect()` of
`dec_offs_tree`, reading `len` raw length values in order. -/
def decOffsCollect : Nat → List Nat → List Bool → List Nat × List Bool
  | 0, acc, bits => (acc, bits)
  | n + 1, acc, bits =>
    match dec_len bits with
    | (v, bits1) => decOffsCollect n (acc ++ [v]) bits1

/-- Source `LzhufDecoderInner::dec_offs_tree`: read a `pbit_len`-bit count; 0
gives the degenerate table from `pbit_len` more bits, otherwise read exactly
`len` values via `dec_len` and build a canonical table with 12-bit
acceleration width. -/
def dec_offs_tree (pbit_len : Nat) (bits : List Bool) :
    Except CompressionError (LzhufHuffmanDecoder × List Bool) :=
  match readBits pbit_len bits with
  | (len, _, bits1) =>
    if len = 0 then
      match readBits pbit_len bits1 with
      | (c, _, bits2) => .ok (.Default c, bits2)
    else
      match decOffsCollect len [] bits1 with
      | (ll, bits2) =>
        match huffmanNew ll 12 with
        | .ok t => .ok (.HuffmanDecoder t, bits2)
        | .error _ => .error .DataError

/-- Source `LzhufDecoderInner::init_block`: read the 16-bit block header; on a
full nonzero header rebuild the three tables and enter the block (`true`); a
short read or the value 0 yields `false` (end of stream). -/
def init_block (st : LzhufDecoderInner) (bits : List Bool) :
    Except CompressionError (Bool × LzhufDecoderInner × List Bool) :=
  match readBits 16 bits with
  | (s, delivered, bits1) =>
    if delivered = 16 ∧ s ≠ 0 then
      match dec_len_tree 5 bits1 with
      | .error e => .error e
      | .ok (lt, bits2) =>
        match dec_symb_tree lt bits2 with
        | .error e => .error e
        | .ok (sd, bits3) =>
          match dec_offs_tree st.offset_len bits3 with
          | .error e => .error e
          | .ok (od, bits4) =>
            .ok (true, { st with
              block_len := s
              symbol_decoder := some sd
              offset_decoder := some od }, bits4)
    else .ok (false, st, bits1)

/-- Source: the offset post-processing inside `next` — for `pos > 1` the
offset is `1 <<< (pos - 1)` OR-ed with the next `pos - 1` raw bits, otherwise
`pos` itself with no extra bits. -/
def decodeOffsetFrom (pos : Nat) (bits : List Bool) : Nat × List Bool :=
  if 1 < pos then
    match readBits (pos - 1) bits with
    | (v, _, r) => ((1 <<< (pos - 1)) ||| v, r)
  else (pos, bits)

/-- Source `<LzhufDecoderInner as Decoder>::next`: when the block is exhausted
read a new header (a `false` outcome is the end-of-stream `None`), then decode
one symbol — a value up to 255 is a literal, larger values are match lengths
followed by an offset-table value and its extra bits.  The source unwraps the
two table options; from `new` they are always set once `block_len` is nonzero,
so the unreachable `none` case is modelled by an arbitrary degenerate table. -/
def LzhufDecoderInner.next (st : LzhufDecoderInner) (bits : List Bool) :
    Except CompressionError (Option LzssCode × LzhufDecoderInner × List Bool) :=
  match (if st.block_len = 0 then init_block st bits else .ok (true, st, bits)) with
  | .error e => .error e
  | .ok (false, st1, bits1) => .ok (none, st1, bits1)
  | .ok (true, st1, bits1) =>
    let st2 : LzhufDecoderInner := { st1 with block_len := st1.block_len - 1 }
    match (st2.symbol_decoder.getD (.Default 0)).dec bits1 with
    | .error e => .error e
    | .ok (none, _) => .error .UnexpectedEof
    | .ok (some sym, bits2) =>
      if sym ≤ 255 then .ok (some (.Symbol sym), st2, bits2)
      else
        match (st2.offset_decoder.getD (.Default 0)).dec bits2 with
        | .error e => .error e
        | .ok (none, _) => .error .UnexpectedEof
        | .ok (some pos0, bits3) =>
          match decodeOffsetFrom pos0 bits3 with
          | (pos, bits4) =>
            .ok (some (.Reference (sym - 256 + st2.min_match) pos), st2, bits4)

/-- The top-level pull loop over `next`, fuelled: `none` means the fuel ran
out before the decode finished (the termination theorem exhibits sufficient
fuel for every input), `some` carries the finished outcome — the collected
code sequence on clean end of stream, or the terminal error. -/
def runDecode : Nat → LzhufDecoderInner → List Bool → List LzssCode →
    Option (Except CompressionError (List LzssCode))
  | 0, _, _, _ => none
  | fuel + 1, st, bits, acc =>
    match st.next bits with
    | .error e => some (.error e)
    | .ok (none, _, _) => some (.ok acc)
    | .ok (some c, st1, bits1) => runDecode fuel st1 bits1 (acc ++ [c])

/-- Concrete input of Scenario C: a 5-bit count field declaring 3, the three
code lengths 1, 2, 2 as raw 3-bit fields, then the two bits 11 intended for the
position-3 escape. -/
def bitsScenC3 : List Bool :=
  [false, false, false, true, true] ++
    [false, false, true] ++ [false, true, false] ++ [false, true, false] ++
    [true, true]

/-- The input of Scenario C with the count raised to 4, so the position-3
escape is actually reached. -/
def bitsScenC4 : List Bool :=
  [false, false, true, false, false] ++
    [false, false, true] ++ [false, true, false] ++ [false, true, false] ++
    [true, true]

/-- A symbol-table stream whose escape overfills the declared count yet whose
over-long length list forms a complete prefix code: a 9-bit count of 4, two
symbols 3 (entries 1, 1) decoded through the code-length table [2, 2, 2, 2],
then the symbol 1 escape with 4 extra bits reading 3, pushing six zeros. -/
def bitsSymbOver : List Bool :=
  [false, false, false, false, false, false, true, false, false] ++
    [true, true] ++ [true, true] ++ [false, true] ++ [false, false, true, true]

/-- Modelled from the spec: the LZSS window-expander collaborator — a literal
appends its byte, a back-reference of length `len` copies `len` bytes starting
`pos + 1` positions back in the output produced so far.  Only its action on
the empty code sequence is relied on below. -/
def lzssExpand (codes : List LzssCode) : List Nat :=
  codes.foldl
    (fun out c =>
      match c with
      | .Symbol b => out ++ [b]
      | .Reference len pos =>
        out ++ (List.range len).map (fun i => out.getD (out.length - 1 - pos + i) 0))
    []

/-- Folding `width` bits MSB-first onto an accumulator stays below the obvious bound. -/
theorem bitsToNat_foldl_lt (l : List Bool) :
    ∀ a : Nat, l.foldl (fun a b => 2 * a + b.toNat) a < (a + 1) * 2 ^ l.length := by
  induction l with
  | nil => intro a; simp
  | cons b t ih =>
    intro a
    have h1 := ih (2 * a + b.toNat)
    have hb : b.toNat ≤ 1 := Bool.toNat_le b
    calc List.foldl (fun a b => 2 * a + b.toNat) (2 * a + b.toNat) t
        < (2 * a + b.toNat + 1) * 2 ^ t.length := h1
      _ ≤ ((a + 1) * 2) * 2 ^ t.length := by
          apply Nat.mul_le_mul_right
          omega
      _ = (a + 1) * 2 ^ (t.length + 1) := by ring
      _ = (a + 1) * 2 ^ (b :: t).length := by simp

/-- The value of a bit string is below 2 to its length. -/
theorem bitsToNat_lt (l : List Bool) : bitsToNat l < 2 ^ l.length := by
  simpa [bitsToNat] using bitsToNat_foldl_lt l 0

/-- A `width`-bit read delivers a value below `2 ^ width`. -/
theorem readBits_fst_lt (w : Nat) (bits : List Bool) : (readBits w bits).1 < 2 ^ w := by
  have h := bitsToNat_lt (bits.take w)
  have hlen : (bits.take w).length ≤ w := by simp
  exact lt_of_lt_of_le h (Nat.pow_le_pow_right (by norm_num) hlen)

/-- A read removes at most `width` bits from the front of the stream. -/
theorem readBits_rest_length (w : Nat) (bits : List Bool) :
    (readBits w bits).2.2.length = bits.length - w := by
  simp [readBits]

/-- The unary-flag loop never lengthens the stream. -/
theorem decLenFlags_rest_le (bits : List Bool) :
    ∀ c, (decLenFlags c bits).2.length ≤ bits.length := by
  induction bits with
  | nil => intro c; simp [decLenFlags]
  | cons b t ih =>
    intro c
    simp only [decLenFlags]
    split
    · exact le_trans (ih _) (Nat.le_succ _)
    · simp

/-- The `dec_len` routine never lengthens the stream. -/
theorem dec_len_rest_le (bits : List Bool) : (dec_len bits).2.length ≤ bits.length := by
  simp only [dec_len, readBits]
  split
  · exact le_trans (decLenFlags_rest_le _ _) (by simp)
  · simp

/-- A table decode never lengthens the stream. -/
theorem huffDec_rest_le (lens : List Nat) (bits : List Bool) :
    (huffDec lens bits).2.length ≤ bits.length := by
  simp only [huffDec]
  split <;> simp

/-- Either variant of `LzhufHuffmanDecoder::dec` never lengthens the stream. -/
theorem LzhufHuffmanDecoder.dec_rest_le (d : LzhufHuffmanDecoder) (bits : List Bool)
    (o : Option Nat) (rest : List Bool) (h : d.dec bits = .ok (o, rest)) :
    rest.length ≤ bits.length := by
  cases d with
  | HuffmanDecoder lens =>
    simp only [LzhufHuffmanDecoder.dec, Except.ok.injEq] at h
    have h2 : (huffDec lens bits).2 = rest := by rw [h]
    rw [← h2]; exact huffDec_rest_le lens bits
  | Default s =>
    simp only [LzhufHuffmanDecoder.dec, Except.ok.injEq, Prod.mk.injEq] at h
    rw [← h.2]

/-- The code-length collection loop never lengthens the stream. -/
theorem decLenTreeCollect_rest_le (len : Nat) (acc : List Nat) (bits : List Bool) :
    ∀ ll rest, decLenTreeCollect len acc bits = .ok (ll, rest) →
      rest.length ≤ bits.length := by
  induction acc, bits using decLenTreeCollect.induct len with
  | case1 acc bits h1 h3 c fst r hr acc1 hover =>
    intro ll rest h
    have hover2 : len < (acc ++ List.replicate c 0).length := hover
    rw [decLenTreeCollect.eq_def] at h
    simp only [if_pos h1, if_pos h3, hr, if_pos hover2] at h
    exact absurd h (by simp)
  | case2 acc bits h1 h3 c fst r hr acc1 hover hexact =>
    intro ll rest h
    have hover2 : ¬ len < (acc ++ List.replicate c 0).length := hover
    have hexact2 : (acc ++ List.replicate c 0).length = len := hexact
    rw [decLenTreeCollect.eq_def] at h
    simp only [if_pos h1, if_pos h3, hr, if_neg hover2, if_pos hexact2,
      Except.ok.injEq, Prod.mk.injEq] at h
    have hrl : r.length = bits.length - 2 := by
      have := readBits_rest_length 2 bits
      rw [hr] at this
      exact this
    rw [← h.2]
    omega
  | case3 acc bits h1 h3 c fst r hr acc1 hover hexact v bits2 hdl ih =>
    intro ll rest h
    have hover2 : ¬ len < (acc ++ List.replicate c 0).length := hover
    have hexact2 : ¬ (acc ++ List.replicate c 0).length = len := hexact
    rw [decLenTreeCollect.eq_def] at h
    simp only [if_pos h1, if_pos h3, hr, if_neg hover2, if_neg hexact2, hdl] at h
    have h4 := ih ll rest h
    have h5 : bits2.length ≤ r.length := by
      have := dec_len_rest_le r
      rw [hdl] at this
      exact this
    have hrl : r.length = bits.length - 2 := by
      have := readBits_rest_length 2 bits
      rw [hr] at this
      exact this
    omega
  | case4 acc bits h1 h3 v bits2 hdl ih =>
    intro ll rest h
    rw [decLenTreeCollect.eq_def] at h
    simp only [if_pos h1, if_neg h3, hdl] at h
    have h4 := ih ll rest h
    have h5 : bits2.length ≤ bits.length := by
      have := dec_len_rest_le bits
      rw [hdl] at this
      exact this
    omega
  | case5 acc bits h1 =>
    intro ll rest h
    rw [decLenTreeCollect.eq_def] at h
    simp only [if_neg h1, Except.ok.injEq, Prod.mk.injEq] at h
    rw [← h.2]

/-- The symbol-table collection loop never lengthens the stream. -/
theorem decSymbTreeCollect_rest_le (len : Nat) (d : LzhufHuffmanDecoder)
    (acc : List Nat) (bits : List Bool) :
    ∀ ll rest, decSymbTreeCollect len d acc bits = .ok (ll, rest) →
      rest.length ≤ bits.length := by
  induction acc, bits using decSymbTreeCollect.induct len d with
  | case1 acc bits h1 e hd =>
    intro ll rest h
    rw [decSymbTreeCollect.eq_def] at h
    simp only [if_pos h1, hd] at h
    exact absurd h (by simp)
  | case2 acc bits h1 snd hd =>
    intro ll rest h
    rw [decSymbTreeCollect.eq_def] at h
    simp only [if_pos h1, hd] at h
    exact absurd h (by simp)
  | case3 acc bits h1 bits1 hd ih =>
    intro ll rest h
    rw [decSymbTreeCollect.eq_def] at h
    simp only [if_pos h1, hd, if_pos rfl] at h
    have h4 := ih ll rest h
    have h5 := LzhufHuffmanDecoder.dec_rest_le d bits _ _ hd
    omega
  | case4 acc bits h1 bits1 c fst r hrb hd hne ih =>
    intro ll rest h
    rw [decSymbTreeCollect.eq_def] at h
    simp only [if_pos h1, hd, if_neg (by norm_num : ¬ (1 : Nat) = 0), if_pos rfl,
      hrb] at h
    have h4 := ih ll rest h
    have h5 := LzhufHuffmanDecoder.dec_rest_le d bits _ _ hd
    have h6 : r.length = bits1.length - 4 := by
      have := readBits_rest_length 4 bits1
      rw [hrb] at this
      exact this
    omega
  | case5 acc bits h1 bits1 c fst r hrb hd hne0 hne1 ih =>
    intro ll rest h
    rw [decSymbTreeCollect.eq_def] at h
    simp only [if_pos h1, hd, if_neg (by norm_num : ¬ (2 : Nat) = 0),
      if_neg (by norm_num : ¬ (2 : Nat) = 1), if_pos rfl, hrb] at h
    have h4 := ih ll rest h
    have h5 := LzhufHuffmanDecoder.dec_rest_le d bits _ _ hd
    have h6 : r.length = bits1.length - 9 := by
      have := readBits_rest_length 9 bits1
      rw [hrb] at this
      exact this
    omega
  | case6 acc bits h1 s bits1 hd hne0 hne1 hne2 ih =>
    intro ll rest h
    rw [decSymbTreeCollect.eq_def] at h
    simp only [if_pos h1, hd, if_neg hne0, if_neg hne1, if_neg hne2] at h
    have h4 := ih ll rest h
    have h5 := LzhufHuffmanDecoder.dec_rest_le d bits _ _ hd
    omega
  | case7 acc bits h1 =>
    intro ll rest h
    rw [decSymbTreeCollect.eq_def] at h
    simp only [if_neg h1, Except.ok.injEq, Prod.mk.injEq] at h
    rw [← h.2]

/-- The offset-table collection loop never lengthens the stream. -/
theorem decOffsCollect_rest_le (n : Nat) :
    ∀ acc bits, (decOffsCollect n acc bits).2.length ≤ bits.length := by
  induction n with
  | zero => intro acc bits; simp [decOffsCollect]
  | succ n ih =>
    intro acc bits
    simp only [decOffsCollect]
    have h1 := dec_len_rest_le bits
    rcases hdl : dec_len bits with ⟨v, bits1⟩
    rw [hdl] at h1
    simp only at h1
    exact le_trans (ih (acc ++ [v]) bits1) h1

/-- Code-length table reconstruction never lengthens the stream. -/
theorem dec_len_tree_rest_le (t : Nat) (bits : List Bool) (d : LzhufHuffmanDecoder)
    (rest : List Bool) (h : dec_len_tree t bits = .ok (d, rest)) :
    rest.length ≤ bits.length := by
  simp only [dec_len_tree, readBits] at h
  split at h
  · simp only [Except.ok.injEq, Prod.mk.injEq] at h
    rw [← h.2]
    simp only [List.length_drop]
    omega
  · cases hcol : decLenTreeCollect (bitsToNat (List.take t bits)) [] (List.drop t bits) with
    | error e =>
      rw [hcol] at h
      exact absurd h (by simp)
    | ok p =>
      rcases p with ⟨ll, bits2⟩
      rw [hcol] at h
      have h2 := decLenTreeCollect_rest_le _ _ _ _ _ hcol
      simp only at h
      split at h
      · simp only [Except.ok.injEq, Prod.mk.injEq] at h
        rw [← h.2]
        simp only [List.length_drop] at h2
        omega
      · exact absurd h (by simp)

/-- Symbol-table reconstruction never lengthens the stream. -/
theorem dec_symb_tree_rest_le (ld : LzhufHuffmanDecoder) (bits : List Bool)
    (d : LzhufHuffmanDecoder) (rest : List Bool)
    (h : dec_symb_tree ld bits = .ok (d, rest)) :
    rest.length ≤ bits.length := by
  simp only [dec_symb_tree, readBits] at h
  split at h
  · simp only [Except.ok.injEq, Prod.mk.injEq] at h
    rw [← h.2]
    simp only [List.length_drop]
    omega
  · cases hcol : decSymbTreeCollect (bitsToNat (List.take 9 bits)) ld [] (List.drop 9 bits) with
    | error e =>
      rw [hcol] at h
      exact absurd h (by simp)
    | ok p =>
      rcases p with ⟨ll, bits2⟩
      rw [hcol] at h
      have h2 := decSymbTreeCollect_rest_le _ _ _ _ _ _ hcol
      simp only at h
      split at h
      · simp only [Except.ok.injEq, Prod.mk.injEq] at h
        rw [← h.2]
        simp only [List.length_drop] at h2
        omega
      · exact absurd h (by simp)

/-- Offset-table reconstruction never lengthens the stream. -/
theorem dec_offs_tree_rest_le (p : Nat) (bits : List Bool) (d : LzhufHuffmanDecoder)
    (rest : List Bool) (h : dec_offs_tree p bits = .ok (d, rest)) :
    rest.length ≤ bits.length := by
  simp only [dec_offs_tree, readBits] at h
  split at h
  · simp only [Except.ok.injEq, Prod.mk.injEq] at h
    rw [← h.2]
    simp only [List.length_drop]
    omega
  · have h2 := decOffsCollect_rest_le (bitsToNat (List.take p bits)) [] (List.drop p bits)
    rcases hcol : decOffsCollect (bitsToNat (List.take p bits)) [] (List.drop p bits) with ⟨ll, bits2⟩
    rw [hcol] at h h2
    simp only at h h2
    split at h
    · simp only [Except.ok.injEq, Prod.mk.injEq] at h
      rw [← h.2]
      simp only [List.length_drop] at h2
      omega
    · exact absurd h (by simp)

/-- A successful block start consumes the full 16-bit header (so at least 16
bits) and leaves a nonzero block count below `2 ^ 16`. -/
theorem init_block_ok_true (st st1 : LzhufDecoderInner) (bits rest : List Bool)
    (h : init_block st bits = .ok (true, st1, rest)) :
    rest.length + 16 ≤ bits.length ∧ st1.block_len < 65536 ∧ st1.block_len ≠ 0 := by
  simp only [init_block, readBits] at h
  split at h
  case isTrue hcond =>
    have hlen16 : (List.take 16 bits).length = 16 := hcond.1
    have hblen : 16 ≤ bits.length := by
      simp only [List.length_take] at hlen16
      omega
    have hs : bitsToNat (List.take 16 bits) < 65536 := by
      have := bitsToNat_lt (List.take 16 bits)
      rw [hlen16] at this
      exact this
    cases h1 : dec_len_tree 5 (List.drop 16 bits) with
    | error e =>
      rw [h1] at h
      exact absurd h (by simp)
    | ok p1 =>
      rcases p1 with ⟨lt, bits2⟩
      rw [h1] at h
      simp only at h
      cases h2 : dec_symb_tree lt bits2 with
      | error e =>
        rw [h2] at h
        exact absurd h (by simp)
      | ok p2 =>
        rcases p2 with ⟨sd, bits3⟩
        rw [h2] at h
        simp only at h
        cases h3 : dec_offs_tree st.offset_len bits3 with
        | error e =>
          rw [h3] at h
          exact absurd h (by simp)
        | ok p3 =>
          rcases p3 with ⟨od, bits4⟩
          rw [h3] at h
          simp only [Except.ok.injEq, Prod.mk.injEq] at h
          have e1 := dec_len_tree_rest_le _ _ _ _ h1
          have e2 := dec_symb_tree_rest_le _ _ _ _ h2
          have e3 := dec_offs_tree_rest_le _ _ _ _ h3
          simp only [List.length_drop] at e1
          have hrest : rest = bits4 := h.2.2.symm
          have hst : st1 = { st with
              block_len := bitsToNat (List.take 16 bits)
              symbol_decoder := some sd
              offset_decoder := some od } := h.2.1.symm
          subst hrest
          subst hst
          refine ⟨by omega, by simpa using hs, by simpa using hcond.2⟩
  case isFalse hcond =>
    exact absurd h (by simp)

/-- Offset post-processing never lengthens the stream. -/
theorem decodeOffsetFrom_rest_le (pos : Nat) (bits : List Bool) :
    (decodeOffsetFrom pos bits).2.length ≤ bits.length := by
  simp only [decodeOffsetFrom, readBits]
  split <;> simp

/-- Every decode step that yields a code strictly decreases the measure
`bits * 2 ^ 16 + block_len`: inside a block it decrements the count without
adding bits, and starting a block consumes a full 16-bit header while the new
count stays below `2 ^ 16`. -/
theorem next_some_measure (st st1 : LzhufDecoderInner) (bits bits1 : List Bool)
    (c : LzssCode) (h : st.next bits = .ok (some c, st1, bits1)) :
    bits1.length * 65536 + st1.block_len < bits.length * 65536 + st.block_len := by
  by_cases hbl : st.block_len = 0
  · simp only [LzhufDecoderInner.next, if_pos hbl] at h
    cases hinit : init_block st bits with
    | error e =>
      rw [hinit] at h
      exact absurd h (by simp)
    | ok p =>
      rcases p with ⟨b, st2, bits2⟩
      rw [hinit] at h
      cases b with
      | false => exact absurd h (by simp)
      | true =>
        simp only at h
        have hbnd := init_block_ok_true st st2 bits bits2 hinit
        cases hdec : (Option.getD st2.symbol_decoder (.Default 0)).dec bits2 with
        | error e =>
          rw [hdec] at h
          exact absurd h (by simp)
        | ok q =>
          rcases q with ⟨o, bits3⟩
          rw [hdec] at h
          cases o with
          | none => exact absurd h (by simp)
          | some sym =>
            simp only at h
            have hd3 := LzhufHuffmanDecoder.dec_rest_le _ _ _ _ hdec
            split at h
            · simp only [Except.ok.injEq, Prod.mk.injEq] at h
              have hst : st1 = { st2 with block_len := st2.block_len - 1 } := h.2.1.symm
              have hb : bits1 = bits3 := h.2.2.symm
              subst hst
              subst hb
              simp only
              omega
            · cases hdec2 : (Option.getD st2.offset_decoder (.Default 0)).dec bits3 with
              | error e =>
                rw [hdec2] at h
                exact absurd h (by simp)
              | ok q2 =>
                rcases q2 with ⟨o2, bits4⟩
                rw [hdec2] at h
                cases o2 with
                | none => exact absurd h (by simp)
                | some pos0 =>
                  simp only at h
                  have hd4 := LzhufHuffmanDecoder.dec_rest_le _ _ _ _ hdec2
                  have hd5 := decodeOffsetFrom_rest_le pos0 bits4
                  rcases hoff : decodeOffsetFrom pos0 bits4 with ⟨pos, bits5⟩
                  rw [hoff] at h hd5
                  simp only [Except.ok.injEq, Prod.mk.injEq] at h
                  have hst : st1 = { st2 with block_len := st2.block_len - 1 } := h.2.1.symm
                  have hb : bits1 = bits5 := h.2.2.symm
                  subst hst
                  subst hb
                  simp only at hd5 ⊢
                  omega
  · simp only [LzhufDecoderInner.next, if_neg hbl] at h
    cases hdec : (Option.getD st.symbol_decoder (.Default 0)).dec bits with
    | error e =>
      rw [hdec] at h
      exact absurd h (by simp)
    | ok q =>
      rcases q with ⟨o, bits3⟩
      rw [hdec] at h
      cases o with
      | none => exact absurd h (by simp)
      | some sym =>
        simp only at h
        have hd3 := LzhufHuffmanDecoder.dec_rest_le _ _ _ _ hdec
        split at h
        · simp only [Except.ok.injEq, Prod.mk.injEq] at h
          have hst : st1 = { st with block_len := st.block_len - 1 } := h.2.1.symm
          have hb : bits1 = bits3 := h.2.2.symm
          subst hst
          subst hb
          simp only
          omega
        · cases hdec2 : (Option.getD st.offset_decoder (.Default 0)).dec bits3 with
          | error e =>
            rw [hdec2] at h
            exact absurd h (by simp)
          | ok q2 =>
            rcases q2 with ⟨o2, bits4⟩
            rw [hdec2] at h
            cases o2 with
            | none => exact absurd h (by simp)
            | some pos0 =>
              simp only at h
              have hd4 := LzhufHuffmanDecoder.dec_rest_le _ _ _ _ hdec2
              have hd5 := decodeOffsetFrom_rest_le pos0 bits4
              rcases hoff : decodeOffsetFrom pos0 bits4 with ⟨pos, bits5⟩
              rw [hoff] at h hd5
              simp only [Except.ok.injEq, Prod.mk.injEq] at h
              have hst : st1 = { st with block_len := st.block_len - 1 } := h.2.1.symm
              have hb : bits1 = bits5 := h.2.2.symm
              subst hst
              subst hb
              simp only at hd5 ⊢
              omega

/-- Fuel `bits * 2 ^ 16 + block_len + 1` always lets the pull loop finish. -/
theorem runDecode_sufficient :
    ∀ fuel (st : LzhufDecoderInner) (bits : List Bool) (acc : List LzssCode),
      bits.length * 65536 + st.block_len + 1 ≤ fuel →
      (runDecode fuel st bits acc).isSome := by
  intro fuel
  induction fuel with
  | zero =>
    intro st bits acc h
    exact absurd h (by omega)
  | succ fuel ih =>
    intro st bits acc h
    simp only [runDecode]
    cases hn : st.next bits with
    | error e => simp
    | ok p =>
      rcases p with ⟨o, st1, bits1⟩
      cases o with
      | none => simp
      | some c =>
        simp only
        apply ih
        have := next_some_measure st st1 bits bits1 c hn
        omega

/-- OR-ing a power of two onto a smaller number is addition. -/
theorem two_pow_lor_eq_add : ∀ n v : Nat, v < 2 ^ n → 2 ^ n ||| v = 2 ^ n + v := by
  intro n
  induction n with
  | zero =>
    intro v h
    have hv : v = 0 := by omega
    subst hv
    simp
  | succ n ih =>
    intro v h
    have hp : 2 ^ (n + 1) = 2 * 2 ^ n := by ring
    have h1 : Nat.bit false (2 ^ n) = 2 ^ (n + 1) := by
      simp [Nat.bit_val, hp]
    have h2 : Nat.bit (decide (v % 2 = 1)) (v >>> 1) = v :=
      Nat.bit_decide_mod_two_eq_one_shiftRight_one v
    have hv2 : v >>> 1 < 2 ^ n := by
      rw [Nat.shiftRight_one]
      omega
    have hm : (decide (v % 2 = 1)).toNat = v % 2 := by
      rcases Nat.mod_two_eq_zero_or_one v with h' | h' <;> simp [h']
    calc 2 ^ (n + 1) ||| v
        = Nat.bit false (2 ^ n) ||| Nat.bit (decide (v % 2 = 1)) (v >>> 1) := by
          rw [h1, h2]
      _ = Nat.bit (false || decide (v % 2 = 1)) (2 ^ n ||| v >>> 1) :=
          Nat.lor_bit false (2 ^ n) (decide (v % 2 = 1)) (v >>> 1)
      _ = Nat.bit (decide (v % 2 = 1)) (2 ^ n + v >>> 1) := by
          rw [ih (v >>> 1) hv2]
          simp
      _ = 2 * (2 ^ n + v >>> 1) + (decide (v % 2 = 1)).toNat := Nat.bit_val _ _
      _ = 2 ^ (n + 1) + v := by
          rw [Nat.shiftRight_one, hm]
          omega


-- C1 --------------------------------------------------------------------

/-- C1, counterexample: on a stream of only 10 bits, the 16-bit header read
delivers fewer than 16 bits, yet `init_block` returns the end-of-stream
outcome `Ok(false)` and `next` returns `Ok(None)` — not `UnexpectedEof` as the
claim demands. -/
theorem claimC1_counterexample :
    init_block (LzhufDecoderInner.new ⟨5⟩) (List.replicate 10 true) =
      .ok (false, LzhufDecoderInner.new ⟨5⟩, []) ∧
    (LzhufDecoderInner.new ⟨5⟩).next (List.replicate 10 true) =
      .ok (none, LzhufDecoderInner.new ⟨5⟩, []) ∧
    init_block (LzhufDecoderInner.new ⟨5⟩) (List.replicate 10 true) ≠
      .error CompressionError.UnexpectedEof := by
  have h1 : init_block (LzhufDecoderInner.new ⟨5⟩) (List.replicate 10 true) =
      .ok (false, LzhufDecoderInner.new ⟨5⟩, []) := rfl
  refine ⟨h1, rfl, ?_⟩
  rw [h1]
  simp

/-- C1, amended: for every input stream in which the 16-bit block header read
delivers fewer than 16 bits, the header step treats the stream as ended:
`init_block` consumes the short read and returns `false`, and `next` (called
at a block boundary) returns the end-of-stream indication, with no error. -/
theorem claimC1_amended (st : LzhufDecoderInner) (bits : List Bool)
    (hlen : bits.length < 16) :
    init_block st bits = .ok (false, st, []) ∧
    (st.block_len = 0 → st.next bits = .ok (none, st, [])) := by
  have hinit : init_block st bits = .ok (false, st, []) := by
    simp only [init_block, readBits]
    have hc : ¬ ((List.take 16 bits).length = 16 ∧ bitsToNat (List.take 16 bits) ≠ 0) := by
      intro hc
      have := hc.1
      simp only [List.length_take] at this
      omega
    rw [if_neg hc]
    have hd : List.drop 16 bits = [] := List.drop_eq_nil_of_le (by omega)
    rw [hd]
  refine ⟨hinit, fun hbl => ?_⟩
  simp only [LzhufDecoderInner.next, if_pos hbl, hinit]

/-- C1, witness: the amended theorem at a concrete 15-bit stream. -/
theorem claimC1_witness :
    init_block (LzhufDecoderInner.new ⟨4⟩) (List.replicate 15 false) =
      .ok (false, LzhufDecoderInner.new ⟨4⟩, []) :=
  (claimC1_amended (LzhufDecoderInner.new ⟨4⟩) (List.replicate 15 false) (by simp)).1

-- C2 --------------------------------------------------------------------

/-- C2, counterexample: on the Scenario C input itself — count `L = 3`, three
normally coded entries, then the bits 11 — `dec_len_tree` succeeds, building
the table from the three entries and leaving the two escape bits unread; it
does not fail with `DataError`. -/
theorem claimC2_counterexample :
    dec_len_tree 5 bitsScenC3 =
      .ok (.HuffmanDecoder [1, 2, 2], [true, true]) ∧
    dec_len_tree 5 bitsScenC3 ≠ .error CompressionError.DataError := by
  have h : dec_len_tree 5 bitsScenC3 = .ok (.HuffmanDecoder [1, 2, 2], [true, true]) := by
    simp [dec_len_tree, bitsScenC3, readBits, bitsToNat, decLenTreeCollect, dec_len,
      huffmanNew, kraftSum]
  refine ⟨h, ?_⟩
  rw [h]
  simp

/-- C2, amended: with `L = 3` the collection loop stops after the three normal
entries, never reaching the escape (which requires `L ≥ 4`), and succeeds; on
the analogous input with `L = 4`, where the escape reads 11 (= 3) and pushing
3 zeros onto the 3 entries would make 6 > 4, reconstruction fails with
`DataError`. -/
theorem claimC2_amended :
    dec_len_tree 5 bitsScenC3 =
      .ok (.HuffmanDecoder [1, 2, 2], [true, true]) ∧
    dec_len_tree 5 bitsScenC4 = .error CompressionError.DataError := by
  constructor
  · simp [dec_len_tree, bitsScenC3, readBits, bitsToNat, decLenTreeCollect, dec_len,
      huffmanNew, kraftSum]
  · simp [dec_len_tree, bitsScenC4, readBits, bitsToNat, decLenTreeCollect, dec_len]

-- C9 --------------------------------------------------------------------

/-- C9: on the input of exactly 16 zero bits, the full 16-bit header reads 0,
so `init_block` reports end of stream, `next` returns the end-of-stream
indication with no error, the decode loop finishes immediately with an empty
code sequence, and the window expander turns that into no output bytes. -/
theorem claimC9 :
    init_block (LzhufDecoderInner.new ⟨5⟩) (List.replicate 16 false) =
      .ok (false, LzhufDecoderInner.new ⟨5⟩, []) ∧
    (LzhufDecoderInner.new ⟨5⟩).next (List.replicate 16 false) =
      .ok (none, LzhufDecoderInner.new ⟨5⟩, []) ∧
    runDecode 1 (LzhufDecoderInner.new ⟨5⟩) (List.replicate 16 false) [] =
      some (.ok []) ∧
    lzssExpand [] = [] :=
  ⟨rfl, rfl, rfl, rfl⟩

-- C10 -------------------------------------------------------------------

/-- C10, counterexample: on a 2-bit stream the 3-bit read of `dec_len`
delivers only 2 bits, yet `dec_len` returns the value 3 formed from those
bits instead of failing with `UnexpectedEof` as the claim demands. -/
theorem claimC10_counterexample :
    dec_len (List.replicate 2 true) = (3, []) ∧
    (readBits 3 (List.replicate 2 true)).2.1 = 2 :=
  ⟨rfl, rfl⟩

/-- The unary-flag loop adds one per leading 1 flag (8-bit wrapping) and
consumes those flags together with the terminating 0 flag. -/
theorem decLenFlags_spec (r : List Bool) :
    ∀ c, c < 256 →
      decLenFlags c r =
        ((c + (r.takeWhile (fun b => b)).length) % 256,
          (r.dropWhile (fun b => b)).drop 1) := by
  induction r with
  | nil =>
    intro c hc
    simp [decLenFlags, Nat.mod_eq_of_lt hc]
  | cons b t ih =>
    intro c hc
    cases b with
    | false => simp [decLenFlags, List.takeWhile, List.dropWhile, Nat.mod_eq_of_lt hc]
    | true =>
      have h0 : decLenFlags c (true :: t) = decLenFlags ((c + 1) % 256) t := rfl
      rw [h0, ih ((c + 1) % 256) (Nat.mod_lt _ (by norm_num))]
      have ht : List.takeWhile (fun b => b) (true :: t) =
          true :: List.takeWhile (fun b => b) t := rfl
      have hd : List.dropWhile (fun b => b) (true :: t) =
          List.dropWhile (fun b => b) t := rfl
      rw [ht, hd]
      simp only [List.length_cons, Prod.mk.injEq]
      exact ⟨by omega, trivial⟩

/-- C10, amended: `dec_len` reads a 3-bit field (value below 8); a value
below 7 is returned unchanged with no further reads; the value 7 starts the
unary extension, adding one per 1 flag (8-bit wrapping) and stopping at the
first 0 flag or at end of input.  A short read does not fail: the delivered
bits form the value, and a missing flag bit reads as 0, ending the loop. -/
theorem claimC10_amended (bits : List Bool) (c dl : Nat) (r : List Bool)
    (h : readBits 3 bits = (c, dl, r)) :
    c < 8 ∧
    (c < 7 → dec_len bits = (c, r)) ∧
    (c = 7 → dec_len bits =
      ((7 + (r.takeWhile (fun b => b)).length) % 256,
        (r.dropWhile (fun b => b)).drop 1)) := by
  have hc8 : c < 8 := by
    have := readBits_fst_lt 3 bits
    rw [h] at this
    exact this
  refine ⟨hc8, ?_, ?_⟩
  · intro hlt
    simp only [dec_len, h]
    rw [if_neg (by omega)]
  · intro heq
    simp only [dec_len, h, if_pos heq]
    exact decLenFlags_spec r 7 (by norm_num)

/-- C10, witness: the amended theorem at a concrete stream whose 3-bit field
is 7 followed by the flags 1, 1, 0. -/
theorem claimC10_witness :
    dec_len [true, true, true, true, true, false, true] = (9, [true]) := by
  have h := claimC10_amended [true, true, true, true, true, false, true] 7 3
    [true, true, false, true] rfl
  have h2 := h.2.2 rfl
  simpa using h2

-- C4 --------------------------------------------------------------------

/-- C4: whenever the position-3 escape of `dec_len_tree` fires (exactly 3
entries pushed, more needed), pushing its 2-bit run of zeros past `L` fails
with `DataError` (never a silent truncation), and a run reaching `L` exactly
stops collection immediately, returning the completed list. -/
theorem claimC4 (len : Nat) (acc : List Nat) (bits rest : List Bool) (r dl : Nat)
    (hacc : acc.length = 3) (hlt : 3 < len) (hr : readBits 2 bits = (r, dl, rest)) :
    (len < 3 + r → decLenTreeCollect len acc bits = .error CompressionError.DataError) ∧
    (3 + r = len →
      decLenTreeCollect len acc bits = .ok (acc ++ List.replicate r 0, rest)) := by
  have h1 : acc.length < len := by omega
  have hlen1 : (acc ++ List.replicate r 0).length = 3 + r := by
    simp [hacc]
  rw [decLenTreeCollect.eq_def]
  simp only [if_pos h1, if_pos hacc, hr]
  constructor
  · intro hover
    have hc : len < (acc ++ List.replicate r 0).length := by omega
    rw [if_pos hc]
  · intro hexact
    have hc1 : ¬ len < (acc ++ List.replicate r 0).length := by omega
    have hc2 : (acc ++ List.replicate r 0).length = len := by omega
    rw [if_neg hc1, if_pos hc2]

/-- C4, witness: the escape with run 3 at `L = 5` overshoots (3 + 3 > 5) and
fails with `DataError`. -/
theorem claimC4_witness :
    decLenTreeCollect 5 [0, 0, 0] [true, true] = .error CompressionError.DataError := by
  have h := claimC4 5 [0, 0, 0] [true, true] [] 3 2 rfl (by norm_num) rfl
  exact h.1 (by norm_num)

-- C6 --------------------------------------------------------------------

/-- C6: each value the code-length table yields during symbol-table
collection acts as stated — 0 pushes one zero entry; 1 reads 4 extra bits `e`
and pushes `3 + e` zeros; 2 reads 9 extra bits `e` and pushes `20 + e` zeros;
`n ≥ 3` pushes one entry `n - 2` (as a `u8`, which is exactly `n - 2` for all
reachable symbols, those up to 257); and collection continues exactly while
fewer than `L2` entries are present. -/
theorem claimC6 (len : Nat) (d : LzhufHuffmanDecoder) (acc : List Nat)
    (bits bits1 : List Bool) (s : Nat)
    (hlen : acc.length < len) (hdec : d.dec bits = .ok (some s, bits1)) :
    (s = 0 → decSymbTreeCollect len d acc bits =
      decSymbTreeCollect len d (acc ++ [0]) bits1) ∧
    (s = 1 → ∀ e dl bits2, readBits 4 bits1 = (e, dl, bits2) →
      decSymbTreeCollect len d acc bits =
        decSymbTreeCollect len d (acc ++ List.replicate (3 + e) 0) bits2) ∧
    (s = 2 → ∀ e dl bits2, readBits 9 bits1 = (e, dl, bits2) →
      decSymbTreeCollect len d acc bits =
        decSymbTreeCollect len d (acc ++ List.replicate (20 + e) 0) bits2) ∧
    (3 ≤ s →
      decSymbTreeCollect len d acc bits =
        decSymbTreeCollect len d (acc ++ [(s - 2) % 256]) bits1 ∧
      (s ≤ 257 → (s - 2) % 256 = s - 2)) ∧
    (∀ (acc2 : List Nat) (bits3 : List Bool), len ≤ acc2.length →
      decSymbTreeCollect len d acc2 bits3 = .ok (acc2, bits3)) := by
  refine ⟨?_, ?_, ?_, ?_, ?_⟩
  · intro h0
    subst h0
    rw [decSymbTreeCollect.eq_def]
    simp only [if_pos hlen, hdec]
    simp
  · intro h1 e dl bits2 hrb
    subst h1
    rw [decSymbTreeCollect.eq_def]
    simp only [if_pos hlen, hdec, hrb]
    norm_num
  · intro h2 e dl bits2 hrb
    subst h2
    rw [decSymbTreeCollect.eq_def]
    simp only [if_pos hlen, hdec, hrb]
    norm_num
  · intro h3
    constructor
    · rw [decSymbTreeCollect.eq_def]
      simp only [if_pos hlen, hdec, if_neg (by omega : ¬ s = 0),
        if_neg (by omega : ¬ s = 1), if_neg (by omega : ¬ s = 2)]
    · intro h257
      exact Nat.mod_eq_of_lt (by omega)
  · intro acc2 bits3 hge
    rw [decSymbTreeCollect.eq_def]
    rw [if_neg (not_lt.mpr hge)]

/-- C6, witness: a concrete step where the decoded symbol 1 with `e = 0`
pushes three zero entries. -/
theorem claimC6_witness :
    decSymbTreeCollect 10 (.Default 1) [] [false, false, false, false] =
      decSymbTreeCollect 10 (.Default 1) (List.replicate 3 0) [] := by
  have h := claimC6 10 (.Default 1) [] [false, false, false, false]
    [false, false, false, false] 1 (by norm_num) rfl
  have h2 := h.2.1 rfl 0 4 [] rfl
  simpa using h2

-- C7 --------------------------------------------------------------------

/-- C7: in each of the three table-reconstruction routines, a declared count
reading 0 makes the routine read the same field width again as the single
constant symbol and return the degenerate variant; and every decode call on a
degenerate table succeeds with that constant, consuming no bits. -/
theorem claimC7 (tbit pbit : Nat) (ld : LzhufHuffmanDecoder)
    (bitsA rA1 rA2 bitsB rB1 rB2 bitsC rC1 rC2 bs : List Bool)
    (cA cB cC k dA1 dA2 dB1 dB2 dC1 dC2 : Nat) :
    (readBits tbit bitsA = (0, dA1, rA1) → readBits tbit rA1 = (cA, dA2, rA2) →
      dec_len_tree tbit bitsA = .ok (.Default cA, rA2)) ∧
    (readBits 9 bitsB = (0, dB1, rB1) → readBits 9 rB1 = (cB, dB2, rB2) →
      dec_symb_tree ld bitsB = .ok (.Default cB, rB2)) ∧
    (readBits pbit bitsC = (0, dC1, rC1) → readBits pbit rC1 = (cC, dC2, rC2) →
      dec_offs_tree pbit bitsC = .ok (.Default cC, rC2)) ∧
    LzhufHuffmanDecoder.dec (.Default k) bs = .ok (some k, bs) := by
  refine ⟨?_, ?_, ?_, rfl⟩
  · intro h1 h2
    simp only [dec_len_tree, h1, h2]
    norm_num
  · intro h1 h2
    simp only [dec_symb_tree, h1, h2]
    norm_num
  · intro h1 h2
    simp only [dec_offs_tree, h1, h2]
    norm_num

/-- C7, witness: the code-length routine on a concrete stream with count 0
and constant 21. -/
theorem claimC7_witness :
    dec_len_tree 5 (List.replicate 5 false ++ [true, false, true, false, true]) =
      .ok (.Default 21, []) := by
  have h := claimC7 5 1 (.Default 0)
    (List.replicate 5 false ++ [true, false, true, false, true])
    [true, false, true, false, true] [] [] [] [] [] [] [] []
    21 0 0 0 5 5 0 0 0 0
  exact h.1 rfl rfl

-- C3 --------------------------------------------------------------------

/-- C3: run-length overshoot in symbol-table reconstruction is tolerated.  At
any point of the fill loop (arbitrary `acc`), a type-1 escape (4 extra bits
`e`, run `3 + e`) or a type-2 escape (9 extra bits `e`, run `20 + e`) whose
zero run pushes past `L2` ends the loop without error, returning the entire
over-long list — strictly more than `L2` entries, not truncated back to `L2`
— and `dec_symb_tree` builds the Huffman table from exactly that list: when
the builder accepts it, the result is the table of the full over-long list,
with no `DataError` reported for the overshoot. -/
theorem claimC3 (len : Nat) (d : LzhufHuffmanDecoder) (acc : List Nat)
    (bits bits1 bits2 bitsB bitsB1 bitsB2 : List Bool) (e dl lenB dlB : Nat)
    (ll tt : List Nat) :
    (acc.length < len → d.dec bits = .ok (some 1, bits1) →
      readBits 4 bits1 = (e, dl, bits2) → len < acc.length + (3 + e) →
      decSymbTreeCollect len d acc bits =
        .ok (acc ++ List.replicate (3 + e) 0, bits2) ∧
      len < (acc ++ List.replicate (3 + e) 0).length) ∧
    (acc.length < len → d.dec bits = .ok (some 2, bits1) →
      readBits 9 bits1 = (e, dl, bits2) → len < acc.length + (20 + e) →
      decSymbTreeCollect len d acc bits =
        .ok (acc ++ List.replicate (20 + e) 0, bits2) ∧
      len < (acc ++ List.replicate (20 + e) 0).length) ∧
    (readBits 9 bitsB = (lenB, dlB, bitsB1) → 0 < lenB →
      decSymbTreeCollect lenB d [] bitsB1 = .ok (ll, bitsB2) → lenB < ll.length →
      huffmanNew ll 12 = .ok tt →
      dec_symb_tree d bitsB = .ok (.HuffmanDecoder tt, bitsB2)) := by
  refine ⟨?_, ?_, ?_⟩
  · intro hlen hdec hrb hover
    have hres : decSymbTreeCollect len d acc bits =
        .ok (acc ++ List.replicate (3 + e) 0, bits2) := by
      rw [decSymbTreeCollect.eq_def]
      simp only [if_pos hlen, hdec, hrb]
      norm_num
      rw [decSymbTreeCollect.eq_def]
      rw [if_neg (by simp; omega)]
    exact ⟨hres, by simp; omega⟩
  · intro hlen hdec hrb hover
    have hres : decSymbTreeCollect len d acc bits =
        .ok (acc ++ List.replicate (20 + e) 0, bits2) := by
      rw [decSymbTreeCollect.eq_def]
      simp only [if_pos hlen, hdec, hrb]
      norm_num
      rw [decSymbTreeCollect.eq_def]
      rw [if_neg (by simp; omega)]
    exact ⟨hres, by simp; omega⟩
  · intro hB9 hBpos hcol hlt hbuild
    simp only [dec_symb_tree, hB9]
    rw [if_neg (by omega : ¬ lenB = 0)]
    rw [hcol]
    simp only
    rw [hbuild]

/-- C3, witness: on `bitsSymbOver` — count `L2 = 4`, two decoded 3s pushing
the entries 1, 1, then a type-1 escape with `e = 3` pushing six zeros mid-loop
— collection returns the over-long eight-entry list `[1, 1, 0, ..., 0]`
without error, and since two length-1 codes form a complete prefix code the
builder accepts it: `dec_symb_tree` returns the table of all eight entries,
four more than declared. -/
theorem claimC3_witness :
    decSymbTreeCollect 4 (.HuffmanDecoder [2, 2, 2, 2]) [1, 1]
        [false, true, false, false, true, true] =
      .ok ([1, 1, 0, 0, 0, 0, 0, 0], []) ∧
    dec_symb_tree (.HuffmanDecoder [2, 2, 2, 2]) bitsSymbOver =
      .ok (.HuffmanDecoder [1, 1, 0, 0, 0, 0, 0, 0], []) ∧
    (4 : Nat) < ([1, 1, 0, 0, 0, 0, 0, 0] : List Nat).length := by
  have hstep := (claimC3 4 (.HuffmanDecoder [2, 2, 2, 2]) [1, 1]
    [false, true, false, false, true, true] [false, false, true, true] []
    [] [] [] 3 4 0 0 [] []).1 (by norm_num) rfl rfl (by norm_num)
  have hcol0 : decSymbTreeCollect 4 (.HuffmanDecoder [2, 2, 2, 2]) [1, 1]
      [false, true, false, false, true, true] =
      .ok ([1, 1, 0, 0, 0, 0, 0, 0], []) := by
    have h1 := hstep.1
    simpa using h1
  have hd1 : (LzhufHuffmanDecoder.HuffmanDecoder [2, 2, 2, 2]).dec
      [true, true, true, true, false, true, false, false, true, true] =
      .ok (some 3, [true, true, false, true, false, false, true, true]) := rfl
  have hd2 : (LzhufHuffmanDecoder.HuffmanDecoder [2, 2, 2, 2]).dec
      [true, true, false, true, false, false, true, true] =
      .ok (some 3, [false, true, false, false, true, true]) := rfl
  have hcol : decSymbTreeCollect 4 (.HuffmanDecoder [2, 2, 2, 2]) []
      [true, true, true, true, false, true, false, false, true, true] =
      .ok ([1, 1, 0, 0, 0, 0, 0, 0], []) := by
    rw [decSymbTreeCollect.eq_def]
    simp only [hd1]
    norm_num
    rw [decSymbTreeCollect.eq_def]
    simp only [hd2]
    norm_num
    exact hcol0
  refine ⟨hcol0, ?_, by norm_num⟩
  exact (claimC3 4 (.HuffmanDecoder [2, 2, 2, 2]) [] [] [] [] bitsSymbOver
    [true, true, true, true, false, true, false, false, true, true] []
    0 0 4 9 [1, 1, 0, 0, 0, 0, 0, 0] [1, 1, 0, 0, 0, 0, 0, 0]).2.2
    rfl (by norm_num) hcol (by norm_num) rfl

-- C5 --------------------------------------------------------------------

/-- C5: in back-reference decoding, an offset-table value up to 1 is emitted
unchanged with no extra bits; a value `k ≥ 2` ORs `1 <<< (k - 1)` with `k - 1`
raw MSB-first bits, lands in `[2 ^ (k - 1), 2 ^ k - 1]`, and (when the stream
holds at least `k - 1` bits) consumes exactly `k - 1` bits. -/
theorem claimC5 (st : LzhufDecoderInner) (s pos : Nat) (bits : List Bool)
    (hbl : st.block_len ≠ 0)
    (hsym : st.symbol_decoder = some (.Default s)) (hs : 256 ≤ s)
    (hoff : st.offset_decoder = some (.Default pos)) :
    st.next bits =
      .ok (some (.Reference (s - 256 + st.min_match) (decodeOffsetFrom pos bits).1),
        { st with block_len := st.block_len - 1 }, (decodeOffsetFrom pos bits).2) ∧
    (pos ≤ 1 → decodeOffsetFrom pos bits = (pos, bits)) ∧
    (2 ≤ pos → pos - 1 ≤ bits.length →
      2 ^ (pos - 1) ≤ (decodeOffsetFrom pos bits).1 ∧
      (decodeOffsetFrom pos bits).1 ≤ 2 ^ pos - 1 ∧
      (decodeOffsetFrom pos bits).1 =
        (1 <<< (pos - 1)) ||| bitsToNat (List.take (pos - 1) bits) ∧
      (decodeOffsetFrom pos bits).2.length = bits.length - (pos - 1)) := by
  refine ⟨?_, ?_, ?_⟩
  · simp only [LzhufDecoderInner.next, if_neg hbl]
    simp only [hsym, hoff, Option.getD_some, LzhufHuffmanDecoder.dec]
    rw [if_neg (by omega : ¬ s ≤ 255)]
  · intro hle
    simp only [decodeOffsetFrom]
    rw [if_neg (by omega : ¬ 1 < pos)]
  · intro hpos2 hblen
    have htk : (List.take (pos - 1) bits).length = pos - 1 := by
      simp only [List.length_take]
      omega
    have hv : bitsToNat (List.take (pos - 1) bits) < 2 ^ (pos - 1) := by
      have := bitsToNat_lt (List.take (pos - 1) bits)
      rw [htk] at this
      exact this
    have hdof : decodeOffsetFrom pos bits =
        ((1 <<< (pos - 1)) ||| bitsToNat (List.take (pos - 1) bits),
          List.drop (pos - 1) bits) := by
      simp only [decodeOffsetFrom, readBits]
      rw [if_pos (by omega : 1 < pos)]
    have hadd : (1 <<< (pos - 1)) ||| bitsToNat (List.take (pos - 1) bits) =
        2 ^ (pos - 1) + bitsToNat (List.take (pos - 1) bits) := by
      rw [Nat.one_shiftLeft]
      exact two_pow_lor_eq_add (pos - 1) _ hv
    have hp : 2 ^ pos = 2 * 2 ^ (pos - 1) := by
      conv_lhs => rw [show pos = (pos - 1) + 1 from by omega]
      rw [pow_succ]
      ring
    rw [hdof]
    refine ⟨?_, ?_, ?_, ?_⟩
    · simp only
      rw [hadd]
      omega
    · simp only
      rw [hadd]
      omega
    · simp only
    · simp

/-- C5, witness: `pos = 3` over the bits 101 gives offset 6 in `[4, 7]`,
consuming two bits. -/
theorem claimC5_witness :
    2 ^ 2 ≤ (decodeOffsetFrom 3 [true, false, true]).1 ∧
    (decodeOffsetFrom 3 [true, false, true]).1 ≤ 2 ^ 3 - 1 ∧
    (decodeOffsetFrom 3 [true, false, true]).2.length = 1 := by
  have h := claimC5 ⟨5, 3, 2, some (.Default 300), some (.Default 3)⟩ 300 3
    [true, false, true] (by norm_num) rfl (by norm_num) rfl
  have h3 := h.2.2 (by norm_num) (by norm_num)
  exact ⟨h3.1, h3.2.1, h3.2.2.2⟩

-- C8 --------------------------------------------------------------------

/-- C8: the decode loop terminates on every input: fuel
`bits * 2 ^ 16 + block_len + 1` always suffices for the pull loop to finish
with an outcome — a finite code sequence or a reported error. -/
theorem claimC8 (st : LzhufDecoderInner) (bits : List Bool) (acc : List LzssCode) :
    (runDecode (bits.length * 65536 + st.block_len + 1) st bits acc).isSome :=
  runDecode_sufficient _ st bits acc le_rfl
